import Mathlib

/-!
Verification of the redpill-vault core against its specification.

Strings from the JavaScript/TypeScript source are embedded as `String`
(with most algorithms working on `List Char`, the character list of the
string). Machine randomness (AES-GCM nonces), the process environment and
the filesystem are passed as explicit inputs.
-/

set_option maxHeartbeats 1000000
set_option maxRecDepth 8192

deriving instance DecidableEq for Except

namespace RedpillVault

/-! ## Output masking (src/rv-exec.ts, maskSecrets and the masking setup) -/

/-- The fixed redaction token `[REDACTED]` used by `maskSecrets`. -/
def redactedL : List Char := "[REDACTED]".toList

/-- `splitOnL` with explicit fuel, so that the definition is structurally
recursive and evaluates inside the kernel; the fuel is never exhausted when
it starts at the text's length (each step consumes at least one
character). -/
def splitOnLF (sep : List Char) (fuel : Nat) (text : List Char) : List (List Char) :=
  match fuel, text with
  | _, [] => [[]]
  | 0, text => [text]
  | fuel + 1, c :: rest =>
    if sep ≠ [] ∧ sep.isPrefixOf (c :: rest) then
      [] :: splitOnLF sep fuel ((c :: rest).drop sep.length)
    else
      match splitOnLF sep fuel rest with
      | [] => [[c]]
      | piece :: pieces => (c :: piece) :: pieces

/-- JavaScript `text.split(sep)` for a non-empty separator `sep`: leftmost,
non-overlapping occurrences split the text into pieces.  (The executor only
ever calls this with non-empty separators, because secret values are
filtered with `v.length > 0` before masking.) -/
def splitOnL (sep : List Char) (text : List Char) : List (List Char) :=
  splitOnLF sep text.length text

/-- JavaScript `pieces.join(sep)`. -/
def joinWithL (sep : List Char) : List (List Char) → List Char
  | [] => []
  | [x] => x
  | x :: xs => x ++ sep ++ joinWithL sep xs

/-- `maskSecrets` from src/rv-exec.ts: for each secret value in order,
`masked = masked.split(secret).join("[REDACTED]")`. -/
def maskSecretsL (text : List Char) (secrets : List (List Char)) : List Char :=
  secrets.foldl (fun masked secret => joinWithL redactedL (splitOnL secret masked)) text

/-- String-level wrapper of `maskSecretsL`. -/
def maskSecrets (text : String) (secrets : List String) : String :=
  ⟨maskSecretsL text.toList (secrets.map String.toList)⟩

/-- `replaceAllL` with explicit fuel (see `splitOnLF`). -/
def replaceAllLF (pat rep : List Char) (fuel : Nat) (text : List Char) : List Char :=
  match fuel, text with
  | _, [] => []
  | 0, text => text
  | fuel + 1, c :: rest =>
    if pat ≠ [] ∧ pat.isPrefixOf (c :: rest) then
      rep ++ replaceAllLF pat rep fuel ((c :: rest).drop pat.length)
    else
      c :: replaceAllLF pat rep fuel rest

/-- Reference replacement function: scan left to right, replacing each
leftmost occurrence of `pat` by `rep` and continuing after it.  This is the
specification-side meaning of "replace every literal occurrence". -/
def replaceAllL (pat rep : List Char) (text : List Char) : List Char :=
  replaceAllLF pat rep text.length text

/-- The masking setup of src/rv-exec.ts lines 182-200: with `--no-mask`
(`noMask = true`) the child's streams are inherited and forwarded unchanged;
otherwise every chunk is passed through `maskSecrets` with the non-empty
secret values. -/
def forwardChunk (noMask : Bool) (secretValues : List (List Char)) (chunk : List Char) :
    List Char :=
  if noMask then chunk
  else maskSecretsL chunk (secretValues.filter (fun v => v ≠ []))

/-! ## Project-name normalization (config.ts) -/

/-- Character-wise model of JavaScript `toUpperCase` (ASCII range). -/
def jsToUpperChar (c : Char) : Char :=
  if 97 ≤ c.toNat ∧ c.toNat ≤ 122 then Char.ofNat (c.toNat - 32) else c

/-- Is `c` in the class `[A-Z0-9]` of the source regex? -/
def isUpperAlnum (c : Char) : Bool :=
  decide ((65 ≤ c.toNat ∧ c.toNat ≤ 90) ∨ (48 ≤ c.toNat ∧ c.toNat ≤ 57))

/-- `replace(/[^A-Z0-9]/g, "_")`, character-wise. -/
def replaceNonAlnumChar (c : Char) : Char :=
  if isUpperAlnum c then c else '_'

/-- `replace(/_+/g, "_")`: collapse each run of underscores to one. -/
def collapseUnderscores : List Char → List Char
  | [] => []
  | [c] => [c]
  | c :: d :: rest =>
    if c = '_' ∧ d = '_' then collapseUnderscores (d :: rest)
    else c :: collapseUnderscores (d :: rest)

/-- Remove one leading underscore (the `^_` alternative of
`replace(/^_|_$/g, "")`). -/
def stripLead (l : List Char) : List Char :=
  match l with
  | c :: rest => if c = '_' then rest else c :: rest
  | [] => []

/-- Remove one trailing underscore (the `_$` alternative). -/
def stripTrail (l : List Char) : List Char :=
  (stripLead l.reverse).reverse

/-- `replace(/^_|_$/g, "")`: the regex removes at most one `_` at the very
start and one at the very end. -/
def stripEdges (l : List Char) : List Char :=
  stripTrail (stripLead l)

/-- `normalizeProjectName` from config.ts: uppercase, replace non-alphanumerics
by `_`, collapse runs of `_`, strip a leading/trailing `_`. -/
def normalizeProjectNameL (l : List Char) : List Char :=
  stripEdges (collapseUnderscores (l.map (fun c => replaceNonAlnumChar (jsToUpperChar c))))

/-- String-level `normalizeProjectName`. -/
def normalizeProjectName (name : String) : String :=
  ⟨normalizeProjectNameL name.toList⟩

/-- No two adjacent underscores (the invariant `collapseUnderscores`
establishes, used to prove normalization idempotent). -/
def noDoubleUnderscore : List Char → Bool
  | [] => true
  | [_] => true
  | c :: d :: rest =>
    if c = '_' ∧ d = '_' then false else noDoubleUnderscore (d :: rest)

/-- `buildScopedKey` from config.ts: `PROJECT__KEY`. -/
def buildScopedKey (projectName key : String) : String :=
  normalizeProjectName projectName ++ "__" ++ key

/-! ## Shell quoting (hook, `shellEscape`) -/

/-- The character-wise effect of `s.replace(/'/g, "'\\''")`: a single quote
becomes the four characters quote, backslash, quote, quote. -/
def escQuoteChar (c : Char) : List Char :=
  if c = '\'' then ['\'', '\\', '\'', '\''] else [c]

/-- `shellEscape` from the hook: `"'" + s.replace(/'/g, "'\\''") + "'"`. -/
def shellEscapeL (l : List Char) : List Char :=
  '\'' :: (l.flatMap escQuoteChar ++ ['\''])

/-- String-level `shellEscape`. -/
def shellEscape (s : String) : String :=
  ⟨shellEscapeL s.toList⟩

/-- POSIX-shell unquoting of a single word, the way `bash -c` would read the
trailing quoted argument of the rewritten command: outside single quotes a
backslash escapes the next character, a quote enters quoted mode; inside
single quotes every character is literal until the closing quote.  Returns
`none` on a dangling backslash or an unterminated quote.  This definition
follows the specification's words ("single-quoted string with internal
single quotes escaped as quote-backslash-quote-quote") and is the reference
against which `shellEscape` is checked. -/
def shellUnquoteL (inQuote : Bool) (l : List Char) : Option (List Char) :=
  match l with
  | [] => if inQuote then none else some []
  | c :: rest =>
    if inQuote then
      if c = '\'' then shellUnquoteL false rest
      else (shellUnquoteL true rest).map (c :: ·)
    else
      if c = '\'' then shellUnquoteL true rest
      else if c = '\\' then
        match rest with
        | [] => none
        | d :: rest2 => (shellUnquoteL false rest2).map (d :: ·)
      else (shellUnquoteL false rest).map (c :: ·)

/-- String-level unquoting. -/
def shellUnquote (s : String) : Option String :=
  (shellUnquoteL false s.toList).map (fun l => ⟨l⟩)

/-! ## Command decision engine (the hook's `processCommand`) -/

/-- JavaScript `\s` (ASCII part, which is all the hook's patterns meet). -/
def isSpaceJS (c : Char) : Bool :=
  c = ' ' || c = '\t' || c = '\n' || c = '\r' || c = '\x0b' || c = '\x0c'

/-- JavaScript `\w`: `[A-Za-z0-9_]`. -/
def isWordCharJS (c : Char) : Bool :=
  decide ((65 ≤ c.toNat ∧ c.toNat ≤ 90) ∨ (97 ≤ c.toNat ∧ c.toNat ≤ 122) ∨
    (48 ≤ c.toNat ∧ c.toNat ≤ 57)) || c = '_'

/-- JavaScript line terminators, which `.` does not match. -/
def isLineTermJS (c : Char) : Bool :=
  c = '\n' || c = '\r' || c.toNat = 0x2028 || c.toNat = 0x2029

/-- JavaScript `command.trim()`. -/
def trimJS (l : List Char) : List Char :=
  ((l.dropWhile isSpaceJS).reverse.dropWhile isSpaceJS).reverse

/-- Consume the literal `lit` at the front of `t`. -/
def dropLit (lit t : List Char) : Option (List Char) :=
  if lit.isPrefixOf t then some (t.drop lit.length) else none

/-- Consume `\s+` (one or more whitespace characters, greedily). -/
def dropWs1 (t : List Char) : Option (List Char) :=
  match t with
  | c :: rest => if isSpaceJS c then some (rest.dropWhile isSpaceJS) else none
  | [] => none

/-- A `\b` position after a word character: end of input or a non-word
character next. -/
def atWordBoundary (t : List Char) : Bool :=
  match t with
  | [] => true
  | c :: _ => ! isWordCharJS c

/-- `^A\s+B\b` for word-ending literals `B` (`psst get`, `psst export`,
`rv approve`, `rv revoke`). -/
def matchLitWsLitB (a b t : List Char) : Bool :=
  match dropLit a t with
  | none => false
  | some r1 =>
    match dropWs1 r1 with
    | none => false
    | some r2 =>
      match dropLit b r2 with
      | none => false
      | some r3 => atWordBoundary r3

/-- `.*lit`: some run of non-line-terminator characters followed by the
literal `lit` (unanchored at the right). -/
def dotStarThenLit (lit : List Char) (l : List Char) : Bool :=
  match l with
  | [] => lit.isEmpty
  | c :: rest => lit.isPrefixOf (c :: rest) || (! isLineTermJS c && dotStarThenLit lit rest)

/-- Unanchored search for `\bw\b.*lit` where `w` is a word (used for
`\bcat\b.*vault\.db` and `\bsqlite3?\b.*vault\.db`).  `prev` is the character
before the current position (`none` at the start of the string). -/
def searchWordThenLit (w lit : List Char) (prev : Option Char) (l : List Char) : Bool :=
  match l with
  | [] => false
  | c :: rest =>
    ((match prev with
      | none => true
      | some p => ! isWordCharJS p) &&
     w.isPrefixOf (c :: rest) &&
     atWordBoundary ((c :: rest).drop w.length) &&
     dotStarThenLit lit ((c :: rest).drop w.length))
    || searchWordThenLit w lit (some c) rest

/-- `^env\s*$`. -/
def matchEnvAlone (t : List Char) : Bool :=
  match dropLit "env".toList t with
  | some r => r.all isSpaceJS
  | none => false

/-- `^env\s+-`. -/
def matchEnvDash (t : List Char) : Bool :=
  match dropLit "env".toList t with
  | none => false
  | some r1 =>
    match dropWs1 r1 with
    | none => false
    | some r2 =>
      match r2 with
      | '-' :: _ => true
      | _ => false

/-- `^printenv\b`. -/
def matchPrintenvB (t : List Char) : Bool :=
  match dropLit "printenv".toList t with
  | some r => atWordBoundary r
  | none => false

/-- The hook's `BLOCKED_PATTERNS` array, as one disjunction (the source loops
over the patterns and returns the same fixed reason at the first match). -/
def blockedPatternsMatch (t : List Char) : Bool :=
  matchLitWsLitB "psst".toList "get".toList t ||
  matchLitWsLitB "psst".toList "export".toList t ||
  searchWordThenLit "cat".toList "vault.db".toList none t ||
  matchEnvAlone t ||
  matchEnvDash t ||
  matchPrintenvB t ||
  searchWordThenLit "sqlite3".toList "vault.db".toList none t ||
  searchWordThenLit "sqlite".toList "vault.db".toList none t

/-- The hook's `AGENT_BLOCKED_PATTERNS`: `^rv\s+approve\b`, `^rv\s+revoke\b`. -/
def agentBlockedMatch (t : List Char) : Bool :=
  matchLitWsLitB "rv".toList "approve".toList t ||
  matchLitWsLitB "rv".toList "revoke".toList t

/-- The safe psst subcommand names of `SAFE_PSST`. -/
def safeSubcommands : List (List Char) :=
  ["list", "set", "rm", "init", "scan", "install-hook", "import"].map String.toList

/-- `^psst\s+(--global\s+)?(list|set|rm|init|scan|install-hook|import)\b`. -/
def matchSafePsst (t : List Char) : Bool :=
  match dropLit "psst".toList t with
  | none => false
  | some r1 =>
    match dropWs1 r1 with
    | none => false
    | some r2 =>
      let subMatch : List Char → Bool := fun r =>
        safeSubcommands.any (fun w => w.isPrefixOf r && atWordBoundary (r.drop w.length))
      subMatch r2 ||
      (match dropLit "--global".toList r2 with
       | none => false
       | some r3 =>
         match dropWs1 r3 with
         | none => false
         | some r4 => subMatch r4)

/-- A declared secret of `.rv.json` (config.ts `SecretEntry`):
`description?`, `as?`, `tag?`. -/
structure SecretEntry where
  description : Option String := none
  as : Option String := none
  tag : Option String := none
deriving DecidableEq

/-- A parsed project config (config.ts `RvConfig`); `secrets` keeps the
manifest's key order, as `Object.entries` does. -/
structure RvConfig where
  project : Option String := none
  secrets : List (String × SecretEntry)
deriving DecidableEq

/-- `buildPsstArgs` from config.ts: `KEY=ALIAS` when the entry has a truthy
`as` (JavaScript truthiness: the empty string does not count), else `KEY`. -/
def buildPsstArgs (config : RvConfig) : List String :=
  config.secrets.map (fun kv =>
    match kv.2.as with
    | some a => if a = "" then kv.1 else kv.1 ++ "=" ++ a
    | none => kv.1)

/-- The hook's result: `{decision: "block", reason}`, `{}` (passthrough) or
`{updatedInput: {command}}`. -/
inductive HookResult where
  | block (reason : String)
  | passthrough
  | rewrite (command : String)
deriving DecidableEq

/-- The outcome of the hook's `resolveConfig` walk (filesystem inputs made
explicit): a loaded config with its root, a load error, or nothing found. -/
structure ConfigResolution where
  config : Option RvConfig
  root : Option String
  loadError : Bool
deriving DecidableEq

/-- The reason string of the approval block. -/
def approvalRequiredReason : String :=
  "redpill-vault: project not approved — the user must run: rv approve"

/-- The reason string of a malformed `.rv.json`. -/
def invalidConfigReason : String :=
  "redpill-vault: invalid .rv.json — the user must run: rv init"

/-- The reason string of the hard-block rules (`BLOCKED_PATTERNS`). -/
def exposeSecretsReason : String :=
  "redpill-vault: blocked — this command could expose secret values"

/-- The reason string of the agent-restricted rules
(`AGENT_BLOCKED_PATTERNS`). -/
def onlyUserReason : String :=
  "redpill-vault: blocked — only the user may run this command"

/-- The reason string of an unknown psst subcommand. -/
def unknownPsstReason : String :=
  "redpill-vault: blocked — unknown psst subcommand"

/-- `root ?? cwd ?? process.cwd()` of the hook. -/
def effectiveCwdOf (res : ConfigResolution) (cwd : Option String) (processCwd : String) :
    String :=
  ((res.root).orElse (fun _ => cwd)).getD processCwd

/-- `processCommand` from the hook (the version with `resolveConfig`):
the pure decision function of the trimmed command, the resolved config and
the approval store. -/
def processCommand (command : String) (res : ConfigResolution)
    (approved : String → Bool) (cwd : Option String) (processCwd : String) : HookResult :=
  let t := trimJS command.toList
  if blockedPatternsMatch t then .block exposeSecretsReason
  else if agentBlockedMatch t then .block onlyUserReason
  else if "rv-exec ".toList.isPrefixOf t then .passthrough
  else if "psst ".toList.isPrefixOf t then
    if matchSafePsst t then .passthrough
    else .block unknownPsstReason
  else if "rv ".toList.isPrefixOf t then .passthrough
  else if res.loadError then .block invalidConfigReason
  else
    match res.config with
    | none => .passthrough
    | some cfg =>
      if cfg.secrets.isEmpty then .passthrough
      else if approved (effectiveCwdOf res cwd processCwd) then
        .rewrite ("rv-exec " ++ String.intercalate " " (buildPsstArgs cfg) ++
          " -- bash -c " ++ shellEscape command)
      else .block approvalRequiredReason

/-- Substring test (used to state that a reason mentions a phrase). -/
def infixOf (sub l : List Char) : Bool :=
  sub.isPrefixOf l ||
  match l with
  | [] => false
  | _ :: rest => infixOf sub rest

/-! ## The executor's key resolution and run (src/rv-exec.ts) -/

/-- A resolved key of the executor: the vault key name looked up in the
store, and the environment variable name it is injected under. -/
structure ResolvedKey where
  vaultKey : String
  envName : String
deriving DecidableEq

/-- `keySpec.includes("=") ? keySpec.split("=", 2) : [keySpec, null]`:
with a `=`, the key is the part before the first `=` and the alias the part
between the first and second `=` (JavaScript `split` with limit 2). -/
def parseKeySpec (spec : String) : String × Option String :=
  if spec.toList.contains '=' then
    let parts := spec.splitOn "="
    (parts.getD 0 "", some (parts.getD 1 ""))
  else (spec, none)

/-- JavaScript string truthiness of the optional project name (`if
(projectName)`): `null` and the empty string both fail. -/
def truthyStr (s : Option String) : Option String :=
  match s with
  | some v => if v = "" then none else some v
  | none => none

/-- One iteration of the executor's resolution loop (src/rv-exec.ts lines
109-130): try the project-scoped name when a project name is set, fall back
to the bare key, otherwise record the env name as missing. -/
def resolveStep (projectName : Option String) (vaultKeys : List String)
    (acc : List ResolvedKey × List String) (keySpec : String) :
    List ResolvedKey × List String :=
  let parsed := parseKeySpec keySpec
  let key := parsed.1
  let envName := parsed.2.getD key
  match truthyStr projectName with
  | some pn =>
    let projectKey := buildScopedKey pn key
    if vaultKeys.contains projectKey then (acc.1 ++ [⟨projectKey, envName⟩], acc.2)
    else if vaultKeys.contains key then (acc.1 ++ [⟨key, envName⟩], acc.2)
    else (acc.1, acc.2 ++ [envName])
  | none =>
    if vaultKeys.contains key then (acc.1 ++ [⟨key, envName⟩], acc.2)
    else (acc.1, acc.2 ++ [envName])

/-- The executor's resolution loop over all key specs. -/
def resolveKeys (keys : List String) (projectName : Option String)
    (vaultKeys : List String) : List ResolvedKey × List String :=
  keys.foldl (resolveStep projectName vaultKeys) ([], [])

/-- Specification-side classification of one key spec (§4.5 of the spec):
`some` when the key resolves, with the vault name it resolves to. -/
def specResolveOne (projectName : Option String) (vaultKeys : List String)
    (spec : String) : Option ResolvedKey :=
  let parsed := parseKeySpec spec
  let key := parsed.1
  let envName := parsed.2.getD key
  match truthyStr projectName with
  | some pn =>
    if vaultKeys.contains (buildScopedKey pn key) then some ⟨buildScopedKey pn key, envName⟩
    else if vaultKeys.contains key then some ⟨key, envName⟩
    else none
  | none => if vaultKeys.contains key then some ⟨key, envName⟩ else none

/-- Specification-side classification of one key spec as missing: `some env`
iff neither the scoped nor the bare key is in the vault. -/
def specMissingOne (projectName : Option String) (vaultKeys : List String)
    (spec : String) : Option String :=
  match specResolveOne projectName vaultKeys spec with
  | some _ => none
  | none => some ((parseKeySpec spec).2.getD (parseKeySpec spec).1)

/-- The stderr report for missing keys (src/rv-exec.ts lines 132-135). -/
def missingReportLines (missing : List String) : List String :=
  if missing.isEmpty then []
  else ["rv-exec: missing secrets (skipped): " ++ String.intercalate ", " missing,
        "  Fix with: rv import .env  or  rv set KEY_NAME"]

/-- The secrets map built from the resolved keys (src/rv-exec.ts lines
156-163): vault lookups returning `null` are skipped; `Map.set` keeps the
first insertion position of a name and overwrites its value. -/
def secretsEntriesOf (resolved : List ResolvedKey) (getSecret : String → Option String) :
    List (String × String) :=
  resolved.foldl (fun acc rk =>
    match getSecret rk.vaultKey with
    | some v =>
      if acc.any (fun e => e.1 = rk.envName) then
        acc.map (fun e => if e.1 = rk.envName then (rk.envName, v) else e)
      else acc ++ [(rk.envName, v)]
    | none => acc) []

/-- Association-list lookup (the entries have unique names). -/
def lookupAssoc (entries : List (String × String)) (k : String) : Option String :=
  match entries with
  | [] => none
  | e :: rest => if e.1 = k then some e.2 else lookupAssoc rest k

/-- How the spawned child ended: the `exit` event (its code is `null` when
the child died on a signal), or the `error` event of a failed spawn. -/
inductive ChildOutcome where
  | exited (code : Option Int)
  | spawnError
deriving DecidableEq

/-- Everything observable about one executor run (after authentication),
for a fixed child outcome. -/
structure ExecResult where
  resolved : List ResolvedKey
  missing : List String
  stderrLines : List String
  spawned : Bool
  childEnv : String → Option String
  maskedValues : List String
  dotenvExists : Bool
  exitCode : Option Int

/-- The executor run of src/rv-exec.ts (lines 100-217), one branch per the
source.  `dotenvExists` is whether the `--dotenv` file is still on disk when
the process is gone; `exitCode = none` means the process died on an
unhandled exception.  In the zero-resolved branch (lines 138-153) the file
is written and `unlinkSync` runs only in the `exit` handler: no `error`
handler is installed there, so a failed spawn raises an unhandled `error`
event and the process dies before any cleanup.  In the resolved branch both
the `error` and the `exit` handlers unlink the file. -/
def rvExecRun (keys : List String) (projectName : Option String)
    (vaultKeys : List String) (getSecret : String → Option String)
    (dotenvPath : Option String) (noMask : Bool)
    (parentEnv : String → Option String) (outcome : ChildOutcome) : ExecResult :=
  let rm := resolveKeys keys projectName vaultKeys
  let resolved := rm.1
  let missing := rm.2
  let stderrLines := missingReportLines missing
  if resolved.isEmpty then
    -- spawn with `{ ...process.env, PSST_PASSWORD: undefined }`; Node omits
    -- `undefined`-valued entries from the child environment.
    let env : String → Option String :=
      fun k => if k = "PSST_PASSWORD" then none else parentEnv k
    match outcome with
    | .exited code =>
      { resolved, missing, stderrLines, spawned := true, childEnv := env,
        maskedValues := [], dotenvExists := false, exitCode := some (code.getD 1) }
    | .spawnError =>
      { resolved, missing, stderrLines, spawned := true, childEnv := env,
        maskedValues := [],
        dotenvExists := dotenvPath.isSome,  -- the empty dotenv file is left behind
        exitCode := none }
  else
    let entries := secretsEntriesOf resolved getSecret
    -- `{ ...process.env, ...Object.fromEntries(secrets) }` then
    -- `delete env.PSST_PASSWORD`.
    let env : String → Option String :=
      fun k => if k = "PSST_PASSWORD" then none else
        match lookupAssoc entries k with
        | some v => some v
        | none => parentEnv k
    let maskedValues := if noMask then [] else (entries.map (fun e => e.2)).filter (· ≠ "")
    match outcome with
    | .exited code =>
      { resolved, missing, stderrLines, spawned := true, childEnv := env,
        maskedValues, dotenvExists := false, exitCode := some (code.getD 0) }
    | .spawnError =>
      { resolved, missing, stderrLines, spawned := true, childEnv := env,
        maskedValues, dotenvExists := false, exitCode := some 2 }

/-! ## Crypto primitives (src/vault/crypto.ts)

Modelled from the spec: the AEAD core itself (WebCrypto `AES-256-GCM` in
`crypto.subtle`) is platform code, not part of this repository; §4.1 of the
specification only requires an authenticated cipher whose decryption fails
when the ciphertext or nonce is tampered with.  The model cipher below works
on bit lists: the plaintext is XORed with a keystream cycled from the key,
and authentication is modelled by making the sealed blob redundant (the
encrypted body twice, then the nonce), so that any single bit flip is
detected exactly.  The `encrypt`/`decrypt` wrappers mirror the source's
plumbing (`encrypt` draws a fresh nonce — here an explicit input — and
returns `(encrypted, iv)`; `decrypt` fails with an authentication error
instead of returning corrupted plaintext). -/

/-- The keystream bit at position `i`, cycling the key. -/
def ksBit (key : List Bool) (i : Nat) : Bool :=
  key.getD (i % key.length) false

/-- XOR the payload with the keystream starting at position `i`. -/
def xorKeystream (key : List Bool) (i : Nat) (l : List Bool) : List Bool :=
  match l with
  | [] => []
  | b :: rest => xor b (ksBit key i) :: xorKeystream key (i + 1) rest

/-- Seal: encrypted body, the body again, then the nonce. -/
def aeadSeal (plaintext key nonce : List Bool) : List Bool :=
  xorKeystream key 0 plaintext ++ xorKeystream key 0 plaintext ++ nonce

/-- Open: parse the blob back into body, body copy and nonce tag; fail unless
both copies agree and the tag matches the supplied nonce. -/
def aeadOpen (blob nonce key : List Bool) : Option (List Bool) :=
  if nonce.length ≤ blob.length ∧ (blob.length - nonce.length) % 2 = 0 then
    let m := (blob.length - nonce.length) / 2
    let c1 := blob.take m
    let c2 := (blob.drop m).take m
    let tagPart := blob.drop (2 * m)
    if c1 = c2 ∧ tagPart = nonce then some (xorKeystream key 0 c1) else none
  else none

/-- Decryption failure (the spec's `AuthenticationError`; the source's
`crypto.subtle.decrypt` rejects with an `OperationError`). -/
inductive CryptoError where
  | authenticationError
deriving DecidableEq

/-- The result shape of `encrypt` in crypto.ts: `{ encrypted, iv }`. -/
structure EncryptResult where
  encrypted : List Bool
  iv : List Bool
deriving DecidableEq

/-- `encrypt(plaintext, key)` of crypto.ts; the fresh random nonce is the
explicit `iv` input. -/
def encrypt (plaintext key iv : List Bool) : EncryptResult :=
  { encrypted := aeadSeal plaintext key iv, iv }

/-- `decrypt(encrypted, iv, key)` of crypto.ts: authenticated open, failing
with an authentication error on any mismatch. -/
def decrypt (encrypted iv key : List Bool) : Except CryptoError (List Bool) :=
  match aeadOpen encrypted iv key with
  | some p => .ok p
  | none => .error .authenticationError

/-- Flip bit `i` of a bit list. -/
def flipBit (i : Nat) (l : List Bool) : List Bool :=
  l.set i (! l.getD i false)

/-! ## The secret store (src/vault/vault.ts `Vault`) -/

/-- One row of the `secrets` table. -/
structure VaultRow where
  name : String
  encryptedValue : List Bool
  iv : List Bool
  tags : List String
deriving DecidableEq

/-- Listing metadata (`listSecrets` never returns plaintext; the source also
carries timestamps, which no claim touches). -/
structure SecretMeta where
  name : String
  tags : List String
deriving DecidableEq

/-- The `Vault` object: `key` is `null` until `unlock`, and the database
rows.  `name` is the primary key. -/
structure VaultState where
  key : Option (List Bool)
  rows : List VaultRow
deriving DecidableEq

/-- Insertion sort step by name (models the `ORDER BY name` of
`listSecrets`). -/
def insertByName (r : VaultRow) : List VaultRow → List VaultRow
  | [] => [r]
  | x :: xs => if r.name ≤ x.name then r :: x :: xs else x :: insertByName r xs

/-- Rows sorted by name. -/
def sortByName (l : List VaultRow) : List VaultRow :=
  l.foldr insertByName []

/-- `setSecret`: throws `"Vault is locked"` without a key; otherwise encrypts
with a fresh nonce (explicit input) and upserts by name. -/
def VaultState.setSecret (v : VaultState) (name : String) (value : List Bool)
    (tags : List String) (nonce : List Bool) : Except String VaultState :=
  match v.key with
  | none => .error "Vault is locked"
  | some k =>
    let enc := encrypt value k nonce
    let row : VaultRow := ⟨name, enc.encrypted, enc.iv, tags⟩
    if v.rows.any (fun r => r.name = name) then
      .ok ⟨v.key, v.rows.map (fun r => if r.name = name then row else r)⟩
    else .ok ⟨v.key, v.rows ++ [row]⟩

/-- `getSecret`: throws `"Vault is locked"` without a key; `none` when the
row is absent; propagates a decryption failure instead of returning a
value. -/
def VaultState.getSecret (v : VaultState) (name : String) :
    Except String (Option (List Bool)) :=
  match v.key with
  | none => .error "Vault is locked"
  | some k =>
    match v.rows.find? (fun r => r.name = name) with
    | none => .ok none
    | some row =>
      match decrypt row.encryptedValue row.iv k with
      | .ok p => .ok (some p)
      | .error _ => .error "OperationError"

/-- `listSecrets`: reads the rows ordered by name and filters by tags with
OR semantics; the source never consults `this.key` here. -/
def VaultState.listSecrets (v : VaultState) (filterTags : Option (List String)) :
    List SecretMeta :=
  let metas := (sortByName v.rows).map (fun r => SecretMeta.mk r.name r.tags)
  match filterTags with
  | some fts =>
    if fts.isEmpty then metas
    else metas.filter (fun s => s.tags.any (fun t => fts.contains t))
  | none => metas

/-- `removeSecret`: deletes the row and reports whether one was deleted; the
source never consults `this.key` here. -/
def VaultState.removeSecret (v : VaultState) (name : String) : Bool × VaultState :=
  (v.rows.any (fun r => r.name = name),
   ⟨v.key, v.rows.filter (fun r => r.name ≠ name)⟩)

/-- A `Vault` that was constructed but never unlocked, holding one row. -/
def lockedVault : VaultState :=
  ⟨none, [⟨"A", [], [], []⟩]⟩

/-! ## The approval store (src/approval.ts) -/

/-- The backing file `approved.json` as `loadStore` can find it: absent,
present but unparseable, or parsed into a map from project path to the
`approvedAt` timestamp. -/
inductive ApprovalFileContent where
  | missing
  | corrupt
  | parsed (store : List (String × String))
deriving DecidableEq

/-- `loadStore`: `{}` when the file is absent, and — via the `catch` — also
`{}` when `JSON.parse` throws; corruption is never surfaced as an error. -/
def loadStore : ApprovalFileContent → List (String × String)
  | .missing => []
  | .corrupt => []
  | .parsed st => st

/-- `isApproved(cwd)`: `cwd in store`. -/
def isApproved (cwd : String) (file : ApprovalFileContent) : Bool :=
  (loadStore file).any (fun e => e.1 = cwd)

/-- `approveProject(cwd)`: read-modify-write of the whole file. -/
def approveProject (cwd now : String) (file : ApprovalFileContent) : ApprovalFileContent :=
  let store := loadStore file
  .parsed (if store.any (fun e => e.1 = cwd) then
             store.map (fun e => if e.1 = cwd then (cwd, now) else e)
           else store ++ [(cwd, now)])

/-- `revokeProject(cwd)`: read-modify-write of the whole file. -/
def revokeProject (cwd : String) (file : ApprovalFileContent) : ApprovalFileContent :=
  .parsed ((loadStore file).filter (fun e => e.1 ≠ cwd))

/-- A one-secret config (`{"secrets": {"A": {}}}`), used in concrete
decision-engine scenarios. -/
def cfgOneSecret : RvConfig := ⟨none, [("A", {})]⟩

/-- A config resolution that found `cfgOneSecret` at root `/p`. -/
def resOneSecret : ConfigResolution := ⟨some cfgOneSecret, some "/p", false⟩

/-- An approval store with nothing approved. -/
def neverApproved : String → Bool := fun _ => false

/-- An approval store with everything approved. -/
def alwaysApproved : String → Bool := fun _ => true

/-! # Theorems -/

/-! ## Masking (C1) -/

theorem splitOnLF_nil (sep : List Char) (f : Nat) : splitOnLF sep f [] = [[]] := by
  cases f <;> rfl

theorem splitOnLF_succ (sep : List Char) (f : Nat) (c : Char) (rest : List Char) :
    splitOnLF sep (f + 1) (c :: rest) =
      if sep ≠ [] ∧ sep.isPrefixOf (c :: rest) then
        [] :: splitOnLF sep f ((c :: rest).drop sep.length)
      else
        match splitOnLF sep f rest with
        | [] => [[c]]
        | piece :: pieces => (c :: piece) :: pieces := rfl

theorem splitOnLF_congr (sep : List Char) (f : Nat) : ∀ (g : Nat) (text : List Char),
    text.length ≤ f → text.length ≤ g → splitOnLF sep f text = splitOnLF sep g text := by
  induction f with
  | zero =>
    intro g text hf _
    have : text = [] := List.eq_nil_of_length_eq_zero (Nat.le_zero.mp hf)
    subst this
    rw [splitOnLF_nil, splitOnLF_nil]
  | succ f ih =>
    intro g text hf hg
    match text with
    | [] => rw [splitOnLF_nil, splitOnLF_nil]
    | c :: rest =>
      match g with
      | 0 => simp at hg
      | g + 1 =>
        rw [splitOnLF_succ, splitOnLF_succ]
        by_cases hc : sep ≠ [] ∧ sep.isPrefixOf (c :: rest)
        · rw [if_pos hc, if_pos hc]
          have hs : 1 ≤ sep.length := by
            cases hsep : sep with
            | nil => exact absurd hsep hc.1
            | cons a as => simp
          have hlen : ((c :: rest).drop sep.length).length ≤ rest.length := by
            simp only [List.length_drop, List.length_cons]; omega
          simp only [List.length_cons] at hf hg
          rw [ih g ((c :: rest).drop sep.length) (by omega) (by omega)]
        · rw [if_neg hc, if_neg hc]
          simp only [List.length_cons] at hf hg
          rw [ih g rest (by omega) (by omega)]

theorem splitOnL_cons (sep : List Char) (c : Char) (rest : List Char) :
    splitOnL sep (c :: rest) =
      if sep ≠ [] ∧ sep.isPrefixOf (c :: rest) then
        [] :: splitOnL sep ((c :: rest).drop sep.length)
      else
        match splitOnL sep rest with
        | [] => [[c]]
        | piece :: pieces => (c :: piece) :: pieces := by
  show splitOnLF sep (rest.length + 1) (c :: rest) = _
  rw [splitOnLF_succ]
  by_cases hc : sep ≠ [] ∧ sep.isPrefixOf (c :: rest)
  · rw [if_pos hc, if_pos hc]
    have hs : 1 ≤ sep.length := by
      cases hsep : sep with
      | nil => exact absurd hsep hc.1
      | cons a as => simp
    have : splitOnLF sep rest.length ((c :: rest).drop sep.length) =
        splitOnL sep ((c :: rest).drop sep.length) := by
      apply splitOnLF_congr
      · simp only [List.length_drop, List.length_cons]; omega
      · exact Nat.le_refl _
    rw [this]
  · rw [if_neg hc, if_neg hc]; rfl

theorem splitOnL_ne_nil (sep text : List Char) : splitOnL sep text ≠ [] := by
  match text with
  | [] => simp [splitOnL, splitOnLF_nil]
  | c :: rest =>
    rw [splitOnL_cons]
    by_cases hc : sep ≠ [] ∧ sep.isPrefixOf (c :: rest)
    · rw [if_pos hc]; simp
    · rw [if_neg hc]
      cases splitOnL sep rest <;> simp

theorem replaceAllLF_nil (pat rep : List Char) (f : Nat) : replaceAllLF pat rep f [] = [] := by
  cases f <;> rfl

theorem replaceAllLF_succ (pat rep : List Char) (f : Nat) (c : Char) (rest : List Char) :
    replaceAllLF pat rep (f + 1) (c :: rest) =
      if pat ≠ [] ∧ pat.isPrefixOf (c :: rest) then
        rep ++ replaceAllLF pat rep f ((c :: rest).drop pat.length)
      else
        c :: replaceAllLF pat rep f rest := rfl

theorem replaceAllLF_congr (pat rep : List Char) (f : Nat) : ∀ (g : Nat) (text : List Char),
    text.length ≤ f → text.length ≤ g →
    replaceAllLF pat rep f text = replaceAllLF pat rep g text := by
  induction f with
  | zero =>
    intro g text hf _
    have : text = [] := List.eq_nil_of_length_eq_zero (Nat.le_zero.mp hf)
    subst this
    rw [replaceAllLF_nil, replaceAllLF_nil]
  | succ f ih =>
    intro g text hf hg
    match text with
    | [] => rw [replaceAllLF_nil, replaceAllLF_nil]
    | c :: rest =>
      match g with
      | 0 => simp at hg
      | g + 1 =>
        rw [replaceAllLF_succ, replaceAllLF_succ]
        by_cases hc : pat ≠ [] ∧ pat.isPrefixOf (c :: rest)
        · rw [if_pos hc, if_pos hc]
          have hs : 1 ≤ pat.length := by
            cases hpat : pat with
            | nil => exact absurd hpat hc.1
            | cons a as => simp
          simp only [List.length_cons] at hf hg
          rw [ih g ((c :: rest).drop pat.length)
            (by simp only [List.length_drop, List.length_cons]; omega)
            (by simp only [List.length_drop, List.length_cons]; omega)]
        · rw [if_neg hc, if_neg hc]
          simp only [List.length_cons] at hf hg
          rw [ih g rest (by omega) (by omega)]

theorem replaceAllL_cons (pat rep : List Char) (c : Char) (rest : List Char) :
    replaceAllL pat rep (c :: rest) =
      if pat ≠ [] ∧ pat.isPrefixOf (c :: rest) then
        rep ++ replaceAllL pat rep ((c :: rest).drop pat.length)
      else
        c :: replaceAllL pat rep rest := by
  show replaceAllLF pat rep (rest.length + 1) (c :: rest) = _
  rw [replaceAllLF_succ]
  by_cases hc : pat ≠ [] ∧ pat.isPrefixOf (c :: rest)
  · rw [if_pos hc, if_pos hc]
    have hs : 1 ≤ pat.length := by
      cases hpat : pat with
      | nil => exact absurd hpat hc.1
      | cons a as => simp
    have : replaceAllLF pat rep rest.length ((c :: rest).drop pat.length) =
        replaceAllL pat rep ((c :: rest).drop pat.length) := by
      apply replaceAllLF_congr
      · simp only [List.length_drop, List.length_cons]; omega
      · exact Nat.le_refl _
    rw [this]
  · rw [if_neg hc, if_neg hc]; rfl

/-- `split(secret).join(token)` is exactly scan-and-replace of every
leftmost occurrence. -/
theorem joinSplit_eq_replaceAll (sep rep : List Char) (h : sep ≠ []) :
    ∀ text, joinWithL rep (splitOnL sep text) = replaceAllL sep rep text
  | [] => by
    show joinWithL rep (splitOnLF sep 0 []) = replaceAllLF sep rep 0 []
    rw [splitOnLF_nil, replaceAllLF_nil]; rfl
  | c :: rest => by
    rw [splitOnL_cons, replaceAllL_cons]
    by_cases hp : sep.isPrefixOf (c :: rest)
    · have hc : sep ≠ [] ∧ sep.isPrefixOf (c :: rest) := ⟨h, hp⟩
      rw [if_pos hc, if_pos hc]
      have hrec := joinSplit_eq_replaceAll sep rep h ((c :: rest).drop sep.length)
      obtain ⟨p, ps, hps⟩ : ∃ p ps, splitOnL sep ((c :: rest).drop sep.length) = p :: ps := by
        cases hsp : splitOnL sep ((c :: rest).drop sep.length) with
        | nil => exact absurd hsp (splitOnL_ne_nil _ _)
        | cons p ps => exact ⟨p, ps, rfl⟩
      rw [hps] at hrec ⊢
      show [] ++ rep ++ joinWithL rep (p :: ps) = rep ++ replaceAllL sep rep _
      rw [← hrec]; simp
    · have hc : ¬(sep ≠ [] ∧ sep.isPrefixOf (c :: rest)) := fun hx => hp hx.2
      rw [if_neg hc, if_neg hc]
      have hrec := joinSplit_eq_replaceAll sep rep h rest
      obtain ⟨p, ps, hps⟩ : ∃ p ps, splitOnL sep rest = p :: ps := by
        cases hsp : splitOnL sep rest with
        | nil => exact absurd hsp (splitOnL_ne_nil _ _)
        | cons p ps => exact ⟨p, ps, rfl⟩
      rw [hps] at hrec ⊢
      show joinWithL rep ((c :: p) :: ps) = c :: replaceAllL sep rep rest
      rw [← hrec]
      cases ps with
      | nil => rfl
      | cons q qs => show (c :: p) ++ rep ++ _ = c :: (p ++ rep ++ _); simp
termination_by text => text.length
decreasing_by
  · have hs : 1 ≤ sep.length := by
      cases hsep : sep with
      | nil => exact absurd hsep h
      | cons a as => simp
    simp only [List.length_drop, List.length_cons]; omega
  · simp

/-- C1.  When masking is enabled, `maskSecrets` replaces every literal
(leftmost, non-overlapping) occurrence of each non-empty resolved secret
value in an output chunk with the fixed token `[REDACTED]` — on the spec's
example, `"key=sk-test-1234 done"` becomes `"key=[REDACTED] done"` — and
with `--no-mask` every chunk is forwarded unchanged. -/
theorem maskSecrets_redacts_every_occurrence :
    (maskSecrets "key=sk-test-1234 done" ["sk-test-1234"] = "key=[REDACTED] done")
    ∧ (∀ (chunk : List Char) (secretValues : List (List Char)),
        forwardChunk true secretValues chunk = chunk)
    ∧ (∀ (chunk : List Char) (secretValues : List (List Char)),
        (∀ s ∈ secretValues, s ≠ []) →
        forwardChunk false secretValues chunk =
          secretValues.foldl (fun text s => replaceAllL s redactedL text) chunk) := by
  refine ⟨by decide, fun chunk secretValues => rfl, fun chunk secretValues hne => ?_⟩
  show maskSecretsL chunk (secretValues.filter (fun v => v ≠ [])) = _
  have hfilter : secretValues.filter (fun v => v ≠ []) = secretValues := by
    apply List.filter_eq_self.mpr
    intro s hs
    simpa using hne s hs
  rw [hfilter]
  show secretValues.foldl (fun masked secret => joinWithL redactedL (splitOnL secret masked))
      chunk = _
  have key : ∀ (sv : List (List Char)), (∀ s ∈ sv, s ≠ []) → ∀ chunk : List Char,
      sv.foldl (fun masked secret => joinWithL redactedL (splitOnL secret masked)) chunk =
      sv.foldl (fun text s => replaceAllL s redactedL text) chunk := by
    intro sv
    induction sv with
    | nil => intro _ _; rfl
    | cons s ss ih =>
      intro hsv ch
      simp only [List.foldl_cons]
      rw [joinSplit_eq_replaceAll s redactedL (hsv s (by simp)) ch]
      exact ih (fun x hx => hsv x (List.mem_cons_of_mem _ hx)) _
  exact key secretValues hne chunk

/-- Witness for C1 at a concrete chunk and secret list. -/
theorem maskSecrets_redacts_every_occurrence_witness :
    forwardChunk false ["bc".toList] "abcabc".toList =
      ["bc".toList].foldl (fun text s => replaceAllL s redactedL text) "abcabc".toList :=
  maskSecrets_redacts_every_occurrence.2.2 "abcabc".toList ["bc".toList] (by decide)

/-! ## The decision engine (C2, C3) -/

/-- Under guards that rule out every earlier rule, `processCommand` reaches
the approval check of a loaded config with declared secrets. -/
theorem processCommand_config_branch (command : String) (res : ConfigResolution)
    (approved : String → Bool) (cwd : Option String) (pcwd : String) (cfg : RvConfig)
    (hb : blockedPatternsMatch (trimJS command.toList) = false)
    (ha : agentBlockedMatch (trimJS command.toList) = false)
    (hx : "rv-exec ".toList.isPrefixOf (trimJS command.toList) = false)
    (hp : "psst ".toList.isPrefixOf (trimJS command.toList) = false)
    (hr : "rv ".toList.isPrefixOf (trimJS command.toList) = false)
    (he : res.loadError = false)
    (hcfg : res.config = some cfg)
    (hne : cfg.secrets ≠ []) :
    processCommand command res approved cwd pcwd =
      if approved (effectiveCwdOf res cwd pcwd) then
        .rewrite ("rv-exec " ++ String.intercalate " " (buildPsstArgs cfg) ++
          " -- bash -c " ++ shellEscape command)
      else .block approvalRequiredReason := by
  have hemp : cfg.secrets.isEmpty = false := by
    cases hs : cfg.secrets with
    | nil => exact absurd hs hne
    | cons a as => rfl
  unfold processCommand
  simp only [hb, ha, hx, hp, hr, he, hcfg, hemp, Bool.false_eq_true, if_false]

/-- Counterexample to C2 as stated: `"rv-exec A -- bash -c x"` is not an
`rv `-prefixed management command, the resolved config declares a secret and
the project is unapproved, yet the decision is passthrough, not a block. -/
theorem unapproved_block_counterexample :
    ("rv ".toList.isPrefixOf (trimJS ("rv-exec A -- bash -c x").toList) = false)
    ∧ cfgOneSecret.secrets ≠ []
    ∧ neverApproved "/p" = false
    ∧ processCommand "rv-exec A -- bash -c x" resOneSecret neverApproved (some "/p") "/p" =
        .passthrough := by
  refine ⟨by decide, by decide, rfl, by decide⟩

/-- C2 (amended).  Under an unapproved project whose resolved config
declares at least one secret, the decision is a complete case split on the
command: one that matches no hard-block or agent-block pattern and is not
`rv-exec `-wrapped, `psst `-prefixed or `rv `-prefixed is blocked with the
approval reason, which mentions `rv approve`; a hard-block or agent-block
match is blocked with its own reason; `rv-exec `-wrapped, `rv `-prefixed
and safe `psst` subcommands pass through; an unknown `psst` subcommand is
blocked with the unknown-subcommand reason.  None of the non-approval
reasons mention the approval command. -/
theorem unapproved_project_blocks (command : String) (res : ConfigResolution)
    (approved : String → Bool) (cwd : Option String) (pcwd : String) (cfg : RvConfig)
    (he : res.loadError = false)
    (hcfg : res.config = some cfg)
    (hne : cfg.secrets ≠ [])
    (hap : approved (effectiveCwdOf res cwd pcwd) = false) :
    (blockedPatternsMatch (trimJS command.toList) = false →
     agentBlockedMatch (trimJS command.toList) = false →
     "rv-exec ".toList.isPrefixOf (trimJS command.toList) = false →
     "psst ".toList.isPrefixOf (trimJS command.toList) = false →
     "rv ".toList.isPrefixOf (trimJS command.toList) = false →
      processCommand command res approved cwd pcwd = .block approvalRequiredReason
      ∧ infixOf "rv approve".toList approvalRequiredReason.toList = true)
    ∧ (blockedPatternsMatch (trimJS command.toList) = true →
        processCommand command res approved cwd pcwd = .block exposeSecretsReason
        ∧ infixOf "rv approve".toList exposeSecretsReason.toList = false)
    ∧ (blockedPatternsMatch (trimJS command.toList) = false →
       agentBlockedMatch (trimJS command.toList) = true →
        processCommand command res approved cwd pcwd = .block onlyUserReason
        ∧ infixOf "rv approve".toList onlyUserReason.toList = false)
    ∧ (blockedPatternsMatch (trimJS command.toList) = false →
       agentBlockedMatch (trimJS command.toList) = false →
       "rv-exec ".toList.isPrefixOf (trimJS command.toList) = true →
        processCommand command res approved cwd pcwd = .passthrough)
    ∧ (blockedPatternsMatch (trimJS command.toList) = false →
       agentBlockedMatch (trimJS command.toList) = false →
       "rv-exec ".toList.isPrefixOf (trimJS command.toList) = false →
       "psst ".toList.isPrefixOf (trimJS command.toList) = true →
        (matchSafePsst (trimJS command.toList) = true →
          processCommand command res approved cwd pcwd = .passthrough)
        ∧ (matchSafePsst (trimJS command.toList) = false →
            processCommand command res approved cwd pcwd = .block unknownPsstReason
            ∧ infixOf "rv approve".toList unknownPsstReason.toList = false))
    ∧ (blockedPatternsMatch (trimJS command.toList) = false →
       agentBlockedMatch (trimJS command.toList) = false →
       "rv-exec ".toList.isPrefixOf (trimJS command.toList) = false →
       "psst ".toList.isPrefixOf (trimJS command.toList) = false →
       "rv ".toList.isPrefixOf (trimJS command.toList) = true →
        processCommand command res approved cwd pcwd = .passthrough) := by
  refine ⟨?_, ?_, ?_, ?_, ?_, ?_⟩
  · intro hb ha hx hp hr
    refine ⟨?_, by decide⟩
    rw [processCommand_config_branch command res approved cwd pcwd cfg hb ha hx hp hr he
      hcfg hne, hap]
    simp
  · intro hb
    refine ⟨?_, by decide⟩
    unfold processCommand
    dsimp only
    rw [if_pos hb]
  · intro hb ha
    refine ⟨?_, by decide⟩
    unfold processCommand
    dsimp only
    rw [if_neg (fun hc => Bool.false_ne_true (hb ▸ hc)), if_pos ha]
  · intro hb ha hx
    unfold processCommand
    dsimp only
    rw [if_neg (fun hc => Bool.false_ne_true (hb ▸ hc)),
      if_neg (fun hc => Bool.false_ne_true (ha ▸ hc)), if_pos hx]
  · intro hb ha hx hp
    constructor
    · intro hs
      unfold processCommand
      dsimp only
      rw [if_neg (fun hc => Bool.false_ne_true (hb ▸ hc)),
        if_neg (fun hc => Bool.false_ne_true (ha ▸ hc)),
        if_neg (fun hc => Bool.false_ne_true (hx ▸ hc)), if_pos hp, if_pos hs]
    · intro hs
      refine ⟨?_, by decide⟩
      unfold processCommand
      dsimp only
      rw [if_neg (fun hc => Bool.false_ne_true (hb ▸ hc)),
        if_neg (fun hc => Bool.false_ne_true (ha ▸ hc)),
        if_neg (fun hc => Bool.false_ne_true (hx ▸ hc)), if_pos hp,
        if_neg (fun hc => Bool.false_ne_true (hs ▸ hc))]
  · intro hb ha hx hp hr
    unfold processCommand
    dsimp only
    rw [if_neg (fun hc => Bool.false_ne_true (hb ▸ hc)),
      if_neg (fun hc => Bool.false_ne_true (ha ▸ hc)),
      if_neg (fun hc => Bool.false_ne_true (hx ▸ hc)),
      if_neg (fun hc => Bool.false_ne_true (hp ▸ hc)), if_pos hr]

/-- Witness for C2 (amended): `echo hi` is blocked with the approval reason
and `psst foo` (an unknown subcommand) is blocked with the unknown-subcommand
reason, under the same unapproved one-secret project. -/
theorem unapproved_project_blocks_witness :
    (processCommand "echo hi" resOneSecret neverApproved (some "/p") "/p" =
        .block approvalRequiredReason
      ∧ infixOf "rv approve".toList approvalRequiredReason.toList = true)
    ∧ (processCommand "psst foo" resOneSecret neverApproved (some "/p") "/p" =
        .block unknownPsstReason
      ∧ infixOf "rv approve".toList unknownPsstReason.toList = false) :=
  ⟨(unapproved_project_blocks "echo hi" resOneSecret neverApproved (some "/p") "/p"
      cfgOneSecret rfl rfl (by decide) rfl).1
    (by decide) (by decide) (by decide) (by decide) (by decide),
   ((unapproved_project_blocks "psst foo" resOneSecret neverApproved (some "/p") "/p"
      cfgOneSecret rfl rfl (by decide) rfl).2.2.2.2.1
    (by decide) (by decide) (by decide) (by decide)).2 (by decide)⟩

theorem shellUnquoteL_true_quote (rest : List Char) :
    shellUnquoteL true ('\'' :: rest) = shellUnquoteL false rest := by
  rw [shellUnquoteL.eq_def]; simp

theorem shellUnquoteL_true_other (c : Char) (rest : List Char) (hc : c ≠ '\'') :
    shellUnquoteL true (c :: rest) = (shellUnquoteL true rest).map (c :: ·) := by
  rw [shellUnquoteL.eq_def]; simp [hc]

theorem shellUnquoteL_false_quote (rest : List Char) :
    shellUnquoteL false ('\'' :: rest) = shellUnquoteL true rest := by
  rw [shellUnquoteL.eq_def]; simp

theorem shellUnquoteL_false_backslash (d : Char) (rest : List Char) :
    shellUnquoteL false ('\\' :: d :: rest) = (shellUnquoteL false rest).map (d :: ·) := by
  rw [shellUnquoteL.eq_def]; simp

/-- The single-quote-escaped body unquotes back to the original text. -/
theorem shellUnquoteL_escBody (l : List Char) :
    shellUnquoteL true (l.flatMap escQuoteChar ++ ['\'']) = some l := by
  induction l with
  | nil => rfl
  | cons c t ih =>
    by_cases hc : c = '\''
    · subst hc
      rw [List.flatMap_cons, show escQuoteChar '\'' = ['\'', '\\', '\'', '\''] from rfl]
      simp only [List.append_assoc, List.cons_append, List.nil_append]
      rw [shellUnquoteL_true_quote, shellUnquoteL_false_backslash,
        shellUnquoteL_false_quote, ih]
      rfl
    · rw [List.flatMap_cons, show escQuoteChar c = [c] from by simp [escQuoteChar, hc]]
      simp only [List.append_assoc, List.cons_append, List.nil_append]
      rw [shellUnquoteL_true_other c _ hc, ih]
      rfl

/-- C3.  `shellEscape` round-trips through POSIX-shell unquoting for every
string, and the `Rewrite` decision embeds the original command exactly as
`rv-exec <keys> -- bash -c <shellEscape command>`. -/
theorem shellEscape_roundtrip :
    (∀ s : String, shellUnquote (shellEscape s) = some s)
    ∧ (∀ (command : String) (res : ConfigResolution) (approved : String → Bool)
        (cwd : Option String) (pcwd : String) (cfg : RvConfig),
        blockedPatternsMatch (trimJS command.toList) = false →
        agentBlockedMatch (trimJS command.toList) = false →
        "rv-exec ".toList.isPrefixOf (trimJS command.toList) = false →
        "psst ".toList.isPrefixOf (trimJS command.toList) = false →
        "rv ".toList.isPrefixOf (trimJS command.toList) = false →
        res.loadError = false →
        res.config = some cfg →
        cfg.secrets ≠ [] →
        approved (effectiveCwdOf res cwd pcwd) = true →
        processCommand command res approved cwd pcwd =
          .rewrite ("rv-exec " ++ String.intercalate " " (buildPsstArgs cfg) ++
            " -- bash -c " ++ shellEscape command)) := by
  constructor
  · intro s
    show (shellUnquoteL false (shellEscapeL s.toList)).map (fun l => (⟨l⟩ : String)) = some s
    show (shellUnquoteL false ('\'' :: (s.toList.flatMap escQuoteChar ++ ['\'']))).map
      (fun l => (⟨l⟩ : String)) = some s
    rw [shellUnquoteL_false_quote, shellUnquoteL_escBody]
    rfl
  · intro command res approved cwd pcwd cfg hb ha hx hp hr he hcfg hne hap
    rw [processCommand_config_branch command res approved cwd pcwd cfg hb ha hx hp hr he
      hcfg hne, hap]
    simp

/-- Witness for C3 at the spec's example command under the approved
one-secret project. -/
theorem shellEscape_roundtrip_witness :
    shellUnquote (shellEscape "echo 'hello world'") = some "echo 'hello world'"
    ∧ processCommand "echo 'hello world'" resOneSecret alwaysApproved (some "/p") "/p" =
        .rewrite ("rv-exec " ++ String.intercalate " " (buildPsstArgs cfgOneSecret) ++
          " -- bash -c " ++ shellEscape "echo 'hello world'") :=
  ⟨shellEscape_roundtrip.1 "echo 'hello world'",
   shellEscape_roundtrip.2 "echo 'hello world'" resOneSecret alwaysApproved (some "/p") "/p"
     cfgOneSecret (by decide) (by decide) (by decide) (by decide) (by decide) rfl rfl
     (by decide) rfl⟩

/-! ## The executor (C4, C5, C6) -/

/-- One resolution step agrees with the per-key specification
classification. -/
theorem resolveStep_eq_spec (pn : Option String) (vault : List String)
    (acc : List ResolvedKey × List String) (k : String) :
    resolveStep pn vault acc k =
      match specResolveOne pn vault k with
      | some rk => (acc.1 ++ [rk], acc.2)
      | none => (acc.1, acc.2 ++ [(parseKeySpec k).2.getD (parseKeySpec k).1]) := by
  unfold resolveStep specResolveOne
  cases truthyStr pn with
  | none =>
    by_cases h : (parseKeySpec k).1 ∈ vault <;> simp [h]
  | some p =>
    by_cases h1 : buildScopedKey p (parseKeySpec k).1 ∈ vault
    · simp [h1]
    · by_cases h2 : (parseKeySpec k).1 ∈ vault <;> simp [h1, h2]

/-- The whole loop is the per-key classification of the specification:
the resolved list and the missing list are the pointwise classifications of
the key specs, in order. -/
theorem resolveKeys_eq_spec (keys : List String) (pn : Option String)
    (vault : List String) :
    resolveKeys keys pn vault =
      (keys.filterMap (specResolveOne pn vault), keys.filterMap (specMissingOne pn vault)) := by
  suffices h : ∀ (ks : List String) (acc : List ResolvedKey × List String),
      ks.foldl (resolveStep pn vault) acc =
        (acc.1 ++ ks.filterMap (specResolveOne pn vault),
         acc.2 ++ ks.filterMap (specMissingOne pn vault)) by
    unfold resolveKeys
    rw [h]
    simp
  intro ks
  induction ks with
  | nil => intro acc; simp
  | cons k ks ih =>
    intro acc
    rw [List.foldl_cons, ih, List.filterMap_cons, List.filterMap_cons,
      resolveStep_eq_spec]
    unfold specMissingOne
    cases hk : specResolveOne pn vault k <;> simp

/-- C4.  Each key spec resolves to the project-scoped name when a project
name is given and the scoped name is in the vault, else to the bare key
when that is in the vault, else its env name is classified missing; and for
every outcome the executor still spawns the command, reporting the missing
env names (with the remediation hint) on stderr. -/
theorem resolver_scoped_fallback_and_degrade (keys : List String) (pn : Option String)
    (vault : List String) (getSecret : String → Option String)
    (dotenvPath : Option String) (noMask : Bool) (parentEnv : String → Option String)
    (outcome : ChildOutcome) :
    resolveKeys keys pn vault =
      (keys.filterMap (specResolveOne pn vault), keys.filterMap (specMissingOne pn vault))
    ∧ (rvExecRun keys pn vault getSecret dotenvPath noMask parentEnv outcome).spawned = true
    ∧ (rvExecRun keys pn vault getSecret dotenvPath noMask parentEnv outcome).stderrLines =
        missingReportLines (keys.filterMap (specMissingOne pn vault)) := by
  refine ⟨resolveKeys_eq_spec keys pn vault, ?_, ?_⟩ <;>
    · cases outcome <;>
        (unfold rvExecRun; rw [resolveKeys_eq_spec]; dsimp only; split <;> rfl)

/-- C5 fails on the code: in the zero-resolved branch the executor writes
the empty dotenv file and installs no `error` handler on the child, so a
spawn failure (command not found) kills the process by an unhandled `error`
event before the `exit`-handler cleanup runs, and the file stays on disk —
while the same spawn failure after a successful resolution does clean up. -/
theorem dotenv_left_behind_on_spawn_failure :
    (rvExecRun ["MISSING_KEY"] none [] (fun _ => none) (some "/tmp/rv.env") false
      (fun _ => none) .spawnError).dotenvExists = true
    ∧ (rvExecRun ["MISSING_KEY"] none [] (fun _ => none) (some "/tmp/rv.env") false
      (fun _ => none) (.exited (some 0))).dotenvExists = false
    ∧ (rvExecRun ["A"] none ["A"] (fun _ => some "v") (some "/tmp/rv.env") false
      (fun _ => none) .spawnError).dotenvExists = false := by
  refine ⟨by decide, by decide, by decide⟩

/-- C6.  In both executor branches the child environment is the parent
environment overlaid by the resolved secrets map (overlay wins on a name
collision; in the zero-resolved branch that map is empty), with the store
authentication variable `PSST_PASSWORD` removed. -/
theorem child_env_overlay_no_auth (keys : List String) (pn : Option String)
    (vault : List String) (getSecret : String → Option String)
    (dotenvPath : Option String) (noMask : Bool) (parentEnv : String → Option String)
    (outcome : ChildOutcome) :
    (rvExecRun keys pn vault getSecret dotenvPath noMask parentEnv outcome).childEnv
        "PSST_PASSWORD" = none
    ∧ (∀ k : String, k ≠ "PSST_PASSWORD" →
        (rvExecRun keys pn vault getSecret dotenvPath noMask parentEnv outcome).childEnv k =
          match lookupAssoc
              (secretsEntriesOf (resolveKeys keys pn vault).1 getSecret) k with
          | some v => some v
          | none => parentEnv k) := by
  constructor
  · unfold rvExecRun
    dsimp only
    split <;> (cases outcome <;> simp)
  · intro k hk
    unfold rvExecRun
    dsimp only
    split
    next h =>
      have hnil : (resolveKeys keys pn vault).1 = [] := List.isEmpty_iff.mp h
      cases outcome <;> (dsimp only; rw [if_neg hk, hnil]; rfl)
    next h =>
      cases outcome <;> (dsimp only; rw [if_neg hk])

/-- Witness for C6 at a concrete run: one resolved key, a parent env that
carries `PSST_PASSWORD`, probed at the injected name. -/
theorem child_env_overlay_no_auth_witness :
    (rvExecRun ["A"] none ["A"] (fun _ => some "v") none false
      (fun _ => some "parent") (.exited (some 0))).childEnv "PSST_PASSWORD" = none
    ∧ (rvExecRun ["A"] none ["A"] (fun _ => some "v") none false
        (fun _ => some "parent") (.exited (some 0))).childEnv "A" =
        match lookupAssoc
            (secretsEntriesOf (resolveKeys ["A"] none ["A"]).1 (fun _ => some "v")) "A" with
        | some v => some v
        | none => (fun _ => some "parent") "A" :=
  ⟨(child_env_overlay_no_auth ["A"] none ["A"] (fun _ => some "v") none false
      (fun _ => some "parent") (.exited (some 0))).1,
   (child_env_overlay_no_auth ["A"] none ["A"] (fun _ => some "v") none false
      (fun _ => some "parent") (.exited (some 0))).2 "A" (by decide)⟩

/-! ## Crypto round trip and tamper detection (C7) -/

theorem length_xorKeystream (key : List Bool) : ∀ (i : Nat) (l : List Bool),
    (xorKeystream key i l).length = l.length := by
  intro i l
  induction l generalizing i with
  | nil => rfl
  | cons b rest ih => simp [xorKeystream, ih]

theorem xorKeystream_involution (key : List Bool) : ∀ (i : Nat) (l : List Bool),
    xorKeystream key i (xorKeystream key i l) = l := by
  intro i l
  induction l generalizing i with
  | nil => rfl
  | cons b rest ih =>
    simp only [xorKeystream, ih]
    congr 1
    cases b <;> cases ksBit key i <;> rfl

/-- Setting a position at or past the end changes nothing. -/
theorem set_oob {α : Type} : ∀ (l : List α) (i : Nat) (x : α), l.length ≤ i → l.set i x = l := by
  intro l
  induction l with
  | nil => intro i x _; rfl
  | cons a as ih =>
    intro i x hi
    cases i with
    | zero => simp at hi
    | succ j =>
      simp only [List.set_cons_succ]
      rw [ih j x (by simpa using hi)]

/-- Flipping a bit inside the list produces a different list. -/
theorem flipBit_ne (l : List Bool) (i : Nat) (hi : i < l.length) : flipBit i l ≠ l := by
  intro he
  have h1 : (l.set i (! l.getD i false))[i]? = some (! l.getD i false) :=
    List.getElem?_set_self hi
  have h2 : l[i]? = some (l.getD i false) := by
    rw [List.getElem?_eq_getElem hi, List.getD_eq_getElem?_getD,
      List.getElem?_eq_getElem hi]
    rfl
  rw [show flipBit i l = l.set i (! l.getD i false) from rfl] at he
  rw [he, h2] at h1
  have := Option.some.inj h1
  cases l.getD i false <;> simp at this

/-- The blob of `aeadSeal` parses back into its three segments. -/
theorem aeadSeal_segments (e n : List Bool) :
    (e ++ e ++ n).take e.length = e
    ∧ ((e ++ e ++ n).drop e.length).take e.length = e
    ∧ (e ++ e ++ n).drop (2 * e.length) = n := by
  refine ⟨?_, ?_, ?_⟩
  · rw [List.append_assoc, List.take_left]
  · rw [List.append_assoc, List.drop_left, List.take_left]
  · rw [List.append_assoc, show 2 * e.length = e.length + e.length by omega,
      ← List.drop_drop, List.drop_left, List.drop_left]

theorem getD_append_left {α : Type} (l₁ l₂ : List α) (i : Nat) (d : α)
    (h : i < l₁.length) : (l₁ ++ l₂).getD i d = l₁.getD i d := by
  rw [List.getD_eq_getElem?_getD, List.getD_eq_getElem?_getD, List.getElem?_append,
    if_pos h]

theorem getD_append_right {α : Type} (l₁ l₂ : List α) (i : Nat) (d : α)
    (h : l₁.length ≤ i) : (l₁ ++ l₂).getD i d = l₂.getD (i - l₁.length) d := by
  rw [List.getD_eq_getElem?_getD, List.getD_eq_getElem?_getD, List.getElem?_append,
    if_neg (by omega)]

/-- C7.  For every plaintext, 32-byte key and 12-byte nonce, decrypting the
output of `encrypt` with the same key returns the plaintext; and flipping
any single bit of the ciphertext, or of the nonce passed to `decrypt`,
makes `decrypt` fail with the authentication error instead of returning a
corrupted plaintext. -/
theorem encrypt_decrypt_roundtrip_and_tamper (p k n : List Bool) (i : Nat)
    (hk : k.length = 256) (hn : n.length = 96) :
    (decrypt (encrypt p k n).encrypted (encrypt p k n).iv k = .ok p)
    ∧ (i < (encrypt p k n).encrypted.length →
        decrypt (flipBit i (encrypt p k n).encrypted) n k = .error .authenticationError)
    ∧ (i < n.length →
        decrypt (encrypt p k n).encrypted (flipBit i n) k = .error .authenticationError) := by
  set e := xorKeystream k 0 p with he
  have hblen : (e ++ e ++ n).length = 2 * e.length + n.length := by
    simp [List.length_append]; omega
  have hm : ((e ++ e ++ n).length - n.length) / 2 = e.length := by omega
  have hcond : n.length ≤ (e ++ e ++ n).length ∧
      ((e ++ e ++ n).length - n.length) % 2 = 0 := by omega
  obtain ⟨hseg1, hseg2, hseg3⟩ := aeadSeal_segments e n
  have hdropL : (e ++ e ++ n).drop e.length = e ++ n := by
    rw [List.append_assoc, List.drop_left]
  have htakeL : (e ++ n).take e.length = e := List.take_left e n
  refine ⟨?_, ?_, ?_⟩
  · show (match aeadOpen (e ++ e ++ n) n k with
      | some q => Except.ok q
      | none => Except.error CryptoError.authenticationError) = Except.ok p
    unfold aeadOpen
    dsimp only
    rw [if_pos hcond]
    simp only [hm, hseg1, hseg2, hseg3]
    simp [he, xorKeystream_involution]
  · intro hilt
    have hilt' : i < (e ++ e ++ n).length := hilt
    set x := ! (e ++ e ++ n).getD i false with hx
    have hsets : flipBit i (e ++ e ++ n) = (e ++ e ++ n).set i x := rfl
    have hflen : (flipBit i (e ++ e ++ n)).length = (e ++ e ++ n).length := by
      rw [hsets, List.length_set]
    show (match aeadOpen (flipBit i (e ++ e ++ n)) n k with
      | some q => Except.ok q
      | none => Except.error CryptoError.authenticationError) = _
    unfold aeadOpen
    dsimp only
    rw [hflen, if_pos hcond]
    simp only [hm]
    have hc1 : (flipBit i (e ++ e ++ n)).take e.length = e.set i x := by
      rw [hsets, List.set_take, hseg1]
    have hc2 : ((flipBit i (e ++ e ++ n)).drop e.length).take e.length =
        (if i < e.length then e else e.set (i - e.length) x) := by
      rw [hsets, List.drop_set]
      by_cases hcase : i < e.length
      · rw [if_pos hcase, if_pos hcase, hdropL, htakeL]
      · rw [if_neg hcase, if_neg hcase, hdropL, List.set_take, htakeL]
    have htag : (flipBit i (e ++ e ++ n)).drop (2 * e.length) =
        (if i < 2 * e.length then n else n.set (i - 2 * e.length) x) := by
      rw [hsets, List.drop_set]
      by_cases hcase : i < 2 * e.length
      · rw [if_pos hcase, if_pos hcase, hseg3]
      · rw [if_neg hcase, if_neg hcase, hseg3]
    have hilen : i < 2 * e.length + n.length := by omega
    by_cases hA : i < e.length
    · -- flip lands in the first ciphertext copy
      have hc2' : ((flipBit i (e ++ e ++ n)).drop e.length).take e.length = e := by
        rw [hc2, if_pos hA]
      have htag' : (flipBit i (e ++ e ++ n)).drop (2 * e.length) = n := by
        rw [htag, if_pos (by omega)]
      have hxv : x = ! e.getD i false := by
        rw [hx, List.append_assoc, getD_append_left _ _ _ _ hA]
      have hne : e.set i x ≠ e := by
        rw [hxv]
        exact flipBit_ne e i hA
      rw [hc1, hc2', htag', if_neg (fun hcf => hne hcf.1)]
    · by_cases hB : i < 2 * e.length
      · -- flip lands in the second ciphertext copy
        have hc1' : (flipBit i (e ++ e ++ n)).take e.length = e := by
          rw [hc1, set_oob e i x (by omega)]
        have hc2' : ((flipBit i (e ++ e ++ n)).drop e.length).take e.length =
            e.set (i - e.length) x := by
          rw [hc2, if_neg hA]
        have htag' : (flipBit i (e ++ e ++ n)).drop (2 * e.length) = n := by
          rw [htag, if_pos hB]
        have hxv : x = ! e.getD (i - e.length) false := by
          rw [hx, List.append_assoc, getD_append_right _ _ _ _ (by omega),
            getD_append_left _ _ _ _ (by omega)]
        have hne : e.set (i - e.length) x ≠ e := by
          rw [hxv]
          exact flipBit_ne e (i - e.length) (by omega)
        rw [hc1', hc2', htag', if_neg (fun hcf => hne hcf.1.symm)]
      · -- flip lands in the appended nonce tag
        have hc1' : (flipBit i (e ++ e ++ n)).take e.length = e := by
          rw [hc1, set_oob e i x (by omega)]
        have hc2' : ((flipBit i (e ++ e ++ n)).drop e.length).take e.length = e := by
          rw [hc2, if_neg hA, set_oob e (i - e.length) x (by omega)]
        have htag' : (flipBit i (e ++ e ++ n)).drop (2 * e.length) =
            n.set (i - 2 * e.length) x := by
          rw [htag, if_neg hB]
        have hxv : x = ! n.getD (i - 2 * e.length) false := by
          rw [hx, List.append_assoc, getD_append_right _ _ _ _ (by omega),
            getD_append_right _ _ _ _ (by omega),
            show i - e.length - e.length = i - 2 * e.length by omega]
        have hne : n.set (i - 2 * e.length) x ≠ n := by
          rw [hxv]
          exact flipBit_ne n (i - 2 * e.length) (by omega)
        rw [hc1', hc2', htag', if_neg (fun hcf => hne hcf.2)]
  · intro hj
    have hjlen : (flipBit i n).length = n.length := by
      rw [show flipBit i n = n.set i (! n.getD i false) from rfl, List.length_set]
    show (match aeadOpen (e ++ e ++ n) (flipBit i n) k with
      | some q => Except.ok q
      | none => Except.error CryptoError.authenticationError) = _
    unfold aeadOpen
    dsimp only
    rw [hjlen, if_pos hcond]
    simp only [hm, hseg1, hseg2, hseg3]
    have hne : n ≠ flipBit i n := (flipBit_ne n i hj).symm
    rw [if_neg (fun hcf => hne hcf.2)]

/-- Witness for C7: a concrete 3-bit plaintext, 256-bit key, 96-bit nonce
and bit position, with every hypothesis discharged by evaluation. -/
theorem encrypt_decrypt_roundtrip_and_tamper_witness :
    (decrypt (encrypt [true, false, true] (List.replicate 256 true)
        (List.replicate 96 false)).encrypted
      (encrypt [true, false, true] (List.replicate 256 true)
        (List.replicate 96 false)).iv (List.replicate 256 true) = .ok [true, false, true])
    ∧ (2 < (encrypt [true, false, true] (List.replicate 256 true)
          (List.replicate 96 false)).encrypted.length →
        decrypt (flipBit 2 (encrypt [true, false, true] (List.replicate 256 true)
            (List.replicate 96 false)).encrypted)
          (List.replicate 96 false) (List.replicate 256 true) = .error .authenticationError)
    ∧ (2 < (List.replicate 96 false : List Bool).length →
        decrypt (encrypt [true, false, true] (List.replicate 256 true)
            (List.replicate 96 false)).encrypted
          (flipBit 2 (List.replicate 96 false)) (List.replicate 256 true) =
            .error .authenticationError) :=
  encrypt_decrypt_roundtrip_and_tamper [true, false, true] (List.replicate 256 true)
    (List.replicate 96 false) 2 (by simp) (by simp)

/-! ## Vault lock discipline (C8) -/

/-- Counterexample to C8 as stated: on a locked vault (no key), the source's
`listSecrets` and `removeSecret` never consult the key — they complete
successfully (`removeSecret` even deletes the row) instead of failing with
the locked-vault error. -/
theorem vault_lock_claim_counterexample :
    lockedVault.key = none
    ∧ (lockedVault.removeSecret "A").1 = true
    ∧ lockedVault.listSecrets none = [⟨"A", []⟩] := by
  refine ⟨rfl, by decide, by decide⟩

/-- C8 (amended).  `setSecret` and `getSecret` require the unlocked state
and fail with the `"Vault is locked"` error on a locked store, while
`listSecrets` and `removeSecret` ignore the lock state entirely (they
behave identically whatever the key is, and never touch plaintext). -/
theorem vault_lock_discipline (v : VaultState) (name : String) (value : List Bool)
    (tags : List String) (nonce : List Bool) (hkey : v.key = none) :
    v.setSecret name value tags nonce = .error "Vault is locked"
    ∧ v.getSecret name = .error "Vault is locked"
    ∧ (∀ k : Option (List Bool),
        VaultState.listSecrets ⟨k, v.rows⟩ none = v.listSecrets none)
    ∧ (∀ k : Option (List Bool),
        (VaultState.removeSecret ⟨k, v.rows⟩ name).1 = (v.removeSecret name).1
        ∧ (VaultState.removeSecret ⟨k, v.rows⟩ name).2.rows =
          (v.removeSecret name).2.rows) := by
  refine ⟨?_, ?_, fun k => rfl, fun k => ⟨rfl, rfl⟩⟩
  · unfold VaultState.setSecret
    rw [hkey]
  · unfold VaultState.getSecret
    rw [hkey]

/-- Witness for C8 (amended) on the concrete locked vault. -/
theorem vault_lock_discipline_witness :
    lockedVault.setSecret "A" [true] [] [] = .error "Vault is locked"
    ∧ lockedVault.getSecret "A" = .error "Vault is locked"
    ∧ (∀ k : Option (List Bool),
        VaultState.listSecrets ⟨k, lockedVault.rows⟩ none = lockedVault.listSecrets none)
    ∧ (∀ k : Option (List Bool),
        (VaultState.removeSecret ⟨k, lockedVault.rows⟩ "A").1 =
          (lockedVault.removeSecret "A").1
        ∧ (VaultState.removeSecret ⟨k, lockedVault.rows⟩ "A").2.rows =
          (lockedVault.removeSecret "A").2.rows) :=
  vault_lock_discipline lockedVault "A" [true] [] [] rfl

/-! ## Project-name normalization (C9) -/

theorem jsToUpperChar_fix (c : Char) (h : isUpperAlnum c = true) : jsToUpperChar c = c := by
  unfold isUpperAlnum at h
  have h' := of_decide_eq_true h
  unfold jsToUpperChar
  rcases h' with ⟨h1, h2⟩ | ⟨h1, h2⟩ <;> rw [if_neg (by omega)]

/-- The normalized character of any character is fixed by another
normalization pass. -/
theorem normChar_fix (c : Char) (h : c = '_' ∨ isUpperAlnum c = true) :
    replaceNonAlnumChar (jsToUpperChar c) = c := by
  rcases h with h | h
  · subst h; decide
  · rw [jsToUpperChar_fix c h]
    unfold replaceNonAlnumChar
    rw [if_pos h]

theorem normChar_cases (c : Char) :
    replaceNonAlnumChar (jsToUpperChar c) = '_'
    ∨ isUpperAlnum (replaceNonAlnumChar (jsToUpperChar c)) = true := by
  unfold replaceNonAlnumChar
  by_cases h : isUpperAlnum (jsToUpperChar c) = true
  · right; rw [if_pos h]; exact h
  · left; rw [if_neg h]

theorem normChar_idem (c : Char) :
    replaceNonAlnumChar (jsToUpperChar (replaceNonAlnumChar (jsToUpperChar c))) =
      replaceNonAlnumChar (jsToUpperChar c) :=
  normChar_fix _ (normChar_cases c)

theorem collapse_head : ∀ (c : Char) (rest : List Char),
    ∃ t, collapseUnderscores (c :: rest) = c :: t
  | c, [] => ⟨[], rfl⟩
  | c, d :: rest => by
    by_cases h : c = '_' ∧ d = '_'
    · obtain ⟨t, ht⟩ := collapse_head d rest
      refine ⟨t, ?_⟩
      show (if c = '_' ∧ d = '_' then collapseUnderscores (d :: rest)
        else c :: collapseUnderscores (d :: rest)) = c :: t
      rw [if_pos h, ht, h.1, h.2]
    · obtain ⟨t, ht⟩ := collapse_head d rest
      refine ⟨d :: t, ?_⟩
      show (if c = '_' ∧ d = '_' then collapseUnderscores (d :: rest)
        else c :: collapseUnderscores (d :: rest)) = c :: d :: t
      rw [if_neg h, ht]

theorem noDouble_collapse : ∀ (l : List Char),
    noDoubleUnderscore (collapseUnderscores l) = true
  | [] => rfl
  | [c] => rfl
  | a :: b :: rest => by
    by_cases h : a = '_' ∧ b = '_'
    · show noDoubleUnderscore (if a = '_' ∧ b = '_' then collapseUnderscores (b :: rest)
        else a :: collapseUnderscores (b :: rest)) = true
      rw [if_pos h]
      exact noDouble_collapse (b :: rest)
    · show noDoubleUnderscore (if a = '_' ∧ b = '_' then collapseUnderscores (b :: rest)
        else a :: collapseUnderscores (b :: rest)) = true
      rw [if_neg h]
      obtain ⟨t, ht⟩ := collapse_head b rest
      rw [ht]
      show (if a = '_' ∧ b = '_' then false else noDoubleUnderscore (b :: t)) = true
      rw [if_neg h, ← ht]
      exact noDouble_collapse (b :: rest)

theorem collapse_of_noDouble : ∀ (l : List Char),
    noDoubleUnderscore l = true → collapseUnderscores l = l
  | [], _ => rfl
  | [c], _ => rfl
  | a :: b :: rest, h => by
    have hcond : ¬(a = '_' ∧ b = '_') := by
      intro hab
      have hf : noDoubleUnderscore (a :: b :: rest) = false := by
        show (if a = '_' ∧ b = '_' then false else noDoubleUnderscore (b :: rest)) = false
        rw [if_pos hab]
      rw [hf] at h
      exact Bool.false_ne_true h
    have htail : noDoubleUnderscore (b :: rest) = true := by
      have heq : noDoubleUnderscore (a :: b :: rest) = noDoubleUnderscore (b :: rest) := by
        show (if a = '_' ∧ b = '_' then false else noDoubleUnderscore (b :: rest)) = _
        rw [if_neg hcond]
      rw [← heq]
      exact h
    show (if a = '_' ∧ b = '_' then collapseUnderscores (b :: rest)
      else a :: collapseUnderscores (b :: rest)) = a :: b :: rest
    rw [if_neg hcond, collapse_of_noDouble (b :: rest) htail]

theorem noDouble_tail (c : Char) (rest : List Char)
    (h : noDoubleUnderscore (c :: rest) = true) : noDoubleUnderscore rest = true := by
  cases rest with
  | nil => rfl
  | cons d rs =>
    by_cases hcd : c = '_' ∧ d = '_'
    · exfalso
      have hf : noDoubleUnderscore (c :: d :: rs) = false := by
        show (if c = '_' ∧ d = '_' then false else _) = false
        rw [if_pos hcd]
      rw [hf] at h
      exact Bool.false_ne_true h
    · have heq : noDoubleUnderscore (c :: d :: rs) = noDoubleUnderscore (d :: rs) := by
        show (if c = '_' ∧ d = '_' then false else _) = _
        rw [if_neg hcd]
      rw [← heq]
      exact h

/-- `noDoubleUnderscore` is an adjacent-pair chain condition. -/
theorem noDouble_iff_chain : ∀ (l : List Char),
    noDoubleUnderscore l = true ↔ List.Chain' (fun a b => ¬(a = '_' ∧ b = '_')) l
  | [] => by simp [noDoubleUnderscore]
  | [c] => by simp [noDoubleUnderscore]
  | a :: b :: rest => by
    rw [List.chain'_cons, ← noDouble_iff_chain (b :: rest)]
    constructor
    · intro h
      by_cases hab : a = '_' ∧ b = '_'
      · exfalso
        have hf : noDoubleUnderscore (a :: b :: rest) = false := by
          show (if a = '_' ∧ b = '_' then false else _) = false
          rw [if_pos hab]
        rw [hf] at h
        exact Bool.false_ne_true h
      · refine ⟨hab, ?_⟩
        have heq : noDoubleUnderscore (a :: b :: rest) = noDoubleUnderscore (b :: rest) := by
          show (if a = '_' ∧ b = '_' then false else _) = _
          rw [if_neg hab]
        rw [← heq]
        exact h
    · intro hpair
      show (if a = '_' ∧ b = '_' then false else noDoubleUnderscore (b :: rest)) = true
      rw [if_neg hpair.1]
      exact hpair.2

theorem noDouble_reverse (l : List Char) (h : noDoubleUnderscore l = true) :
    noDoubleUnderscore l.reverse = true := by
  rw [noDouble_iff_chain] at h ⊢
  rw [List.chain'_reverse]
  exact h.imp (fun a b hab => fun hx => hab ⟨hx.2, hx.1⟩)

theorem noDouble_stripLead (l : List Char) (h : noDoubleUnderscore l = true) :
    noDoubleUnderscore (stripLead l) = true := by
  cases l with
  | nil => rfl
  | cons c rest =>
    show noDoubleUnderscore (if c = '_' then rest else c :: rest) = true
    by_cases hc : c = '_'
    · rw [if_pos hc]; exact noDouble_tail c rest h
    · rw [if_neg hc]; exact h

theorem noDouble_stripTrail (l : List Char) (h : noDoubleUnderscore l = true) :
    noDoubleUnderscore (stripTrail l) = true := by
  unfold stripTrail
  exact noDouble_reverse _ (noDouble_stripLead _ (noDouble_reverse _ h))

/-- After `stripLead` on a no-double-underscore list, the head is not an
underscore. -/
theorem stripLead_head_ne (l : List Char) (h : noDoubleUnderscore l = true) :
    (stripLead l).head? ≠ some '_' := by
  cases l with
  | nil => simp [stripLead]
  | cons c rest =>
    show (if c = '_' then rest else c :: rest).head? ≠ some '_'
    by_cases hc : c = '_'
    · rw [if_pos hc]
      cases rest with
      | nil => simp
      | cons d rs =>
        have hd : d ≠ '_' := by
          intro hd
          have hf : noDoubleUnderscore (c :: d :: rs) = false := by
            show (if c = '_' ∧ d = '_' then false else _) = false
            rw [if_pos ⟨hc, hd⟩]
          rw [hf] at h
          exact Bool.false_ne_true h
        simpa using hd
    · rw [if_neg hc]
      simpa using hc

theorem stripTrail_eq_self_or_dropLast (m : List Char) :
    stripTrail m = m ∨ stripTrail m = m.dropLast := by
  unfold stripTrail
  cases hr : m.reverse with
  | nil =>
    left
    have hm : m = [] := by
      rw [← List.reverse_eq_nil_iff, hr]
    rw [hm]
    rfl
  | cons c t =>
    show ((if c = '_' then t else c :: t).reverse = m)
      ∨ ((if c = '_' then t else c :: t).reverse = m.dropLast)
    by_cases hc : c = '_'
    · right
      rw [if_pos hc]
      have hm : m = t.reverse ++ [c] := by
        rw [← List.reverse_reverse m, hr, List.reverse_cons]
      rw [hm, List.dropLast_concat]
    · left
      rw [if_neg hc, ← hr, List.reverse_reverse]

theorem head?_dropLast {α : Type} (m : List α) :
    m.dropLast.head? = none ∨ m.dropLast.head? = m.head? := by
  cases m with
  | nil => left; rfl
  | cons a rest =>
    cases rest with
    | nil => left; rfl
    | cons b rs => right; rfl

theorem stripLead_of_head (l : List Char) (h : l.head? ≠ some '_') : stripLead l = l := by
  cases l with
  | nil => rfl
  | cons c rest =>
    show (if c = '_' then rest else c :: rest) = c :: rest
    rw [if_neg (by simpa using h)]

theorem stripEdges_fixed (y : List Char) (h1 : y.head? ≠ some '_')
    (h2 : y.getLast? ≠ some '_') : stripEdges y = y := by
  unfold stripEdges
  rw [stripLead_of_head y h1]
  unfold stripTrail
  rw [stripLead_of_head y.reverse (by rw [List.head?_reverse]; exact h2),
    List.reverse_reverse]

theorem mem_collapse : ∀ (l : List Char) (c : Char),
    c ∈ collapseUnderscores l → c ∈ l
  | [], c, h => by simpa [collapseUnderscores] using h
  | [d], c, h => by simpa [collapseUnderscores] using h
  | a :: b :: rest, c, h => by
    by_cases hab : a = '_' ∧ b = '_'
    · have heq : collapseUnderscores (a :: b :: rest) = collapseUnderscores (b :: rest) := by
        show (if a = '_' ∧ b = '_' then _ else _) = _
        rw [if_pos hab]
      rw [heq] at h
      exact List.mem_cons_of_mem a (mem_collapse (b :: rest) c h)
    · have heq : collapseUnderscores (a :: b :: rest) =
          a :: collapseUnderscores (b :: rest) := by
        show (if a = '_' ∧ b = '_' then _ else _) = _
        rw [if_neg hab]
      rw [heq] at h
      rcases List.mem_cons.mp h with hc | hc
      · exact hc ▸ List.mem_cons_self a _
      · exact List.mem_cons_of_mem a (mem_collapse (b :: rest) c hc)

theorem mem_stripLead (l : List Char) (c : Char) (h : c ∈ stripLead l) : c ∈ l := by
  cases l with
  | nil => simpa [stripLead] using h
  | cons a rest =>
    by_cases ha : a = '_'
    · have heq : stripLead (a :: rest) = rest := by
        show (if a = '_' then rest else a :: rest) = rest
        rw [if_pos ha]
      rw [heq] at h
      exact List.mem_cons_of_mem a h
    · have heq : stripLead (a :: rest) = a :: rest := by
        show (if a = '_' then rest else a :: rest) = _
        rw [if_neg ha]
      rw [heq] at h
      exact h

theorem mem_stripTrail (l : List Char) (c : Char) (h : c ∈ stripTrail l) : c ∈ l := by
  rcases stripTrail_eq_self_or_dropLast l with he | he
  · rw [he] at h; exact h
  · rw [he] at h; exact (List.dropLast_sublist l).subset h

theorem mem_stripEdges (l : List Char) (c : Char) (h : c ∈ stripEdges l) : c ∈ l :=
  mem_stripLead l c (mem_stripTrail (stripLead l) c h)

theorem map_fix {α : Type} (f : α → α) : ∀ (l : List α), (∀ c ∈ l, f c = c) → l.map f = l
  | [], _ => rfl
  | a :: rest, h => by
    rw [List.map_cons, h a (List.mem_cons_self a rest),
      map_fix f rest (fun c hc => h c (List.mem_cons_of_mem a hc))]

/-- C9.  `normalizeProjectName` is total (a Lean function) and idempotent,
and names with equal normalizations produce equal scoped keys. -/
theorem normalizeProjectName_idem_and_scoped :
    (∀ n : String, normalizeProjectName (normalizeProjectName n) = normalizeProjectName n)
    ∧ (∀ n1 n2 k : String, normalizeProjectName n1 = normalizeProjectName n2 →
        buildScopedKey n1 k = buildScopedKey n2 k) := by
  have core : ∀ l : List Char,
      normalizeProjectNameL (normalizeProjectNameL l) = normalizeProjectNameL l := by
    intro l
    set x := collapseUnderscores (l.map (fun c => replaceNonAlnumChar (jsToUpperChar c)))
      with hx
    have hndx : noDoubleUnderscore x = true := noDouble_collapse _
    set y := stripEdges x with hy
    have hmemy : ∀ c ∈ y, c ∈ l.map (fun c => replaceNonAlnumChar (jsToUpperChar c)) :=
      fun c hc => mem_collapse _ c (mem_stripEdges x c hc)
    have hfix : ∀ c ∈ y, replaceNonAlnumChar (jsToUpperChar c) = c := by
      intro c hc
      obtain ⟨d, _, hd⟩ := List.mem_map.mp (hmemy c hc)
      rw [← hd]
      exact normChar_idem d
    have hndy : noDoubleUnderscore y = true := by
      rw [hy]
      unfold stripEdges
      exact noDouble_stripTrail _ (noDouble_stripLead _ hndx)
    have hhead : y.head? ≠ some '_' := by
      rw [hy]
      unfold stripEdges
      rcases stripTrail_eq_self_or_dropLast (stripLead x) with he | he
      · rw [he]
        exact stripLead_head_ne x hndx
      · rw [he]
        rcases head?_dropLast (stripLead x) with hn | hn
        · rw [hn]; simp
        · rw [hn]
          exact stripLead_head_ne x hndx
    have hlast : y.getLast? ≠ some '_' := by
      rw [hy]
      unfold stripEdges stripTrail
      rw [← List.head?_reverse, List.reverse_reverse]
      exact stripLead_head_ne _ (noDouble_reverse _ (noDouble_stripLead _ hndx))
    show normalizeProjectNameL y = y
    unfold normalizeProjectNameL
    rw [map_fix _ y hfix, collapse_of_noDouble y hndy, stripEdges_fixed y hhead hlast]
  constructor
  · intro n
    show (⟨normalizeProjectNameL (String.toList ⟨normalizeProjectNameL n.toList⟩)⟩ : String)
      = (⟨normalizeProjectNameL n.toList⟩ : String)
    rw [show String.toList ⟨normalizeProjectNameL n.toList⟩ =
      normalizeProjectNameL n.toList from rfl, core]
  · intro n1 n2 k h
    unfold buildScopedKey
    rw [h]

/-- Witness for C9: two different spellings normalizing identically give
the same scoped key. -/
theorem normalizeProjectName_idem_and_scoped_witness :
    buildScopedKey "my-proj" "API_KEY" = buildScopedKey "MY_PROJ" "API_KEY" :=
  normalizeProjectName_idem_and_scoped.2 "my-proj" "MY_PROJ" "API_KEY" (by decide)

/-! ## The approval store under a corrupt file (C10) -/

/-- C10.  An unparseable `approved.json` is silently treated as the empty
store: `isApproved` is `false` for every project path, the next
`approveProject` rewrites the file holding only the new approval (every
previously recorded approval is gone), the next `revokeProject` rewrites it
empty, and no error is surfaced anywhere (`loadStore` is total). -/
theorem corrupt_approval_store_resets :
    loadStore .corrupt = []
    ∧ (∀ cwd : String, isApproved cwd .corrupt = false)
    ∧ (∀ cwd now : String, approveProject cwd now .corrupt = .parsed [(cwd, now)])
    ∧ (∀ cwd : String, revokeProject cwd .corrupt = .parsed []) := by
  refine ⟨rfl, fun cwd => rfl, fun cwd now => ?_, fun cwd => rfl⟩
  simp [approveProject, loadStore]

end RedpillVault
